import Mathlib

/-!
Verification of the `free-dev-space` CLI core: the rule registry, the
matcher (`isTargetMatch`), the tree walker (`scan`/`walk`), the deletion
executor (`deleteResults`) and the dry-run gating in `main`.

Filesystem paths are embedded as lists of path components: a JS path
string corresponds to the list produced by `split(path.sep)`, so
`path.basename` is the last component, `path.join(dir, name)` is
`dir ++ [name]`, and `entryDir.split(path.sep)` is the list itself.
-/

namespace FreeDevSpace

/-- Matching strategy of a target rule, the `match` discriminator of the
entries of `TARGETS` in the source (a tagged dispatch over four kinds). -/
inductive MatchStrategy where
  | direct
  | parent (p : String)
  | parentPath (g p : String)
  | sibling (s : String)
deriving DecidableEq

/-- One entry of the `TARGETS` table.  The source field `match` is named
`matchKind` here because `match` is a Lean keyword. -/
structure Target where
  name : String
  matchKind : MatchStrategy
deriving DecidableEq

/-- The static rule table `TARGETS` from the source, in source order. -/
def TARGETS : List Target := [
  ⟨"node_modules", .direct⟩,
  ⟨"Pods", .parent "ios"⟩,
  ⟨".next", .direct⟩,
  ⟨".nuxt", .direct⟩,
  ⟨".gradle", .parent "android"⟩,
  ⟨"build", .parentPath "android" "app"⟩,
  ⟨".cxx", .parentPath "android" "app"⟩,
  ⟨"dist", .direct⟩,
  ⟨"vendor", .sibling "Gemfile"⟩,
  ⟨".build", .direct⟩,
  ⟨"target", .sibling "Cargo.toml"⟩,
  ⟨"__pycache__", .direct⟩,
  ⟨".venv", .direct⟩,
  ⟨"venv", .direct⟩,
  ⟨".dart_tool", .direct⟩,
  ⟨".turbo", .direct⟩,
  ⟨".parcel-cache", .direct⟩ ]

/-- `TARGET_NAMES` from the source: the names of all targets (the source
stores them in a `Set`; membership semantics is identical). -/
def TARGET_NAMES : List String := TARGETS.map (·.name)

/-- `SKIP_DIRS` from the source: directories never recursed into besides
matched targets. -/
def SKIP_DIRS : List String := [".git"]

/-- Result of `fs.accessSync(p, F_OK)`: either it returns (the path is
accessible) or it throws with an error code such as ENOENT (absent) or
EACCES (permission denied). -/
inductive AccessResult where
  | ok
  | err (code : String)
deriving DecidableEq

/-- `path.basename` on a component list: the last component. -/
def basename (p : List String) : String := p.getLastD ""

/-- The `for (const target of TARGETS)` loop body of `isTargetMatch`.
`acc` models `fs.accessSync` on a path: `.ok` when the call returns,
`.err code` when it throws.  A `break` out of the `switch` continues the
loop, i.e. recurses on the remaining targets. -/
def matchLoop (acc : List String → AccessResult) (entryName : String)
    (entryDir : List String) : List Target → Bool
  | [] => false
  | t :: rest =>
    if t.name ≠ entryName then matchLoop acc entryName entryDir rest
    else
      match t.matchKind with
      | .direct => true
      | .parent p =>
        if basename entryDir = p then true
        else matchLoop acc entryName entryDir rest
      | .parentPath g p =>
        let parts := entryDir
        let len := parts.length
        if 2 ≤ len ∧ parts.getD (len - 1) "" = p ∧ parts.getD (len - 2) "" = g
        then true
        else matchLoop acc entryName entryDir rest
      | .sibling s =>
        match acc (entryDir ++ [s]) with
        | .ok => true
        | .err _ => matchLoop acc entryName entryDir rest

/-- `isTargetMatch(entryName, entryDir)` from the source, parametrized by
the ambient filesystem's `accessSync` behaviour. -/
def isTargetMatch (acc : List String → AccessResult) (entryName : String)
    (entryDir : List String) : Bool :=
  matchLoop acc entryName entryDir TARGETS

/-- A directory tree: what `fs.readdirSync(dir, withFileTypes)` exposes,
one node per directory entry. -/
inductive Entry where
  | file (name : String)
  | dir (name : String) (children : List Entry)

/-- Name of a directory entry (`entry.name`). -/
def Entry.name : Entry → String
  | .file n => n
  | .dir n _ => n

/-- True iff some entry of the listing has the given name. -/
def existsEntry (es : List Entry) (n : String) : Bool :=
  es.any (fun e => e.name == n)

/-- `fs.accessSync` semantics over a directory listing: querying
`dir ++ [s]` against the entries `es` of `dir` returns `.ok` exactly when
an entry named `s` (file or directory) exists, else throws ENOENT. -/
def accOf (es : List Entry) : List String → AccessResult :=
  fun p => if existsEntry es (p.getLastD "") then .ok else .err "ENOENT"

/-- `isTargetMatch` as evaluated during a walk of a real tree: the
sibling access oracle is the listing of the candidate's parent. -/
def matchedIn (es : List Entry) (dir : List String) (n : String) : Bool :=
  isTargetMatch (accOf es) n dir

/-- A match record pushed by `scan`: `{ name, path: fullPath, size: 0 }`. -/
structure MatchRec where
  name : String
  path : List String
  size : Nat
deriving DecidableEq

/-- The `walk(dir)` loop of `scan`, iterating over the entries of `dir`.
`all` is the full listing of `dir` (what `readdirSync` returned, and what
the sibling access oracle consults); the third argument is the suffix of
`all` still to be processed.  Per entry: files are ignored; names in
`SKIP_DIRS` are skipped; a matched name produces a record and is not
recursed into; an unmatched known target name is not recursed into;
anything else is recursed into. -/
def walkAux (dir : List String) (all : List Entry) : List Entry → List MatchRec
  | [] => []
  | Entry.file _ :: rest => walkAux dir all rest
  | Entry.dir name children :: rest =>
    if name ∈ SKIP_DIRS then walkAux dir all rest
    else if isTargetMatch (accOf all) name dir then
      ⟨name, dir ++ [name], 0⟩ :: walkAux dir all rest
    else if name ∈ TARGET_NAMES then walkAux dir all rest
    else walkAux (dir ++ [name]) children children ++ walkAux dir all rest

/-- `scan(rootPath)`: walk the tree whose root listing is `es`, rooted at
path `root`. -/
def scan (root : List String) (es : List Entry) : List MatchRec :=
  walkAux root es es

/-- True iff the directory tree with listing `es` contains a directory at
the relative component path given (the empty path denotes the root). -/
def dirExistsAt (es : List Entry) : List String → Bool
  | [] => true
  | n :: rest => es.any (fun e => match e with
      | .dir m ch => m == n && dirExistsAt ch rest
      | .file _ => false)

/-- True iff a file (not a directory) named `n` is in the listing. -/
def existsFileNamed (es : List Entry) (n : String) : Bool :=
  es.any (fun e => match e with
      | .file m => m == n
      | .dir _ _ => false)

/-- `p` is an initial segment of `q` (as component lists): `q` lies at or
below `p` in the tree. -/
def initSeg : List String → List String → Bool
  | [], _ => true
  | _ :: _, [] => false
  | a :: as, b :: bs => a == b && initSeg as bs

/-- `q` is a strict descendant path of `p`: `p` is an initial segment of
`q` and `q` is strictly longer. -/
def isStrictDescendantOf (q p : List String) : Bool :=
  initSeg p q && decide (p.length < q.length)

/-! ### Deletion executor -/

/-- State of a path at deletion time: removable, unremovable (`rmSync`
throws with a message), or no longer existing. -/
inductive PathState where
  | removable
  | stuck (msg : String)
  | absent
deriving DecidableEq

/-- Result of one `fs.rmSync` call: returned, or threw an error. -/
inductive RmOutcome where
  | success
  | failure (msg : String)
deriving DecidableEq

/-- `fs.rmSync(p, { recursive: true, force: true })` as called by
`deleteResults`: succeeds on a removable subtree; throws on an
unremovable one; and — per Node's documented `force: true` semantics —
raises no exception when the path does not exist. -/
def rmSyncForce (st : List String → PathState) (p : List String) : RmOutcome :=
  match st p with
  | .removable => .success
  | .absent => .success
  | .stuck msg => .failure msg

/-- The `for` loop of `deleteResults`, carrying the `freed` and `failed`
accumulators: on success `freed += r.size`; on a caught error
`failed++`; the loop always continues to the next record. -/
def deleteLoop (st : List String → PathState) (freed failed : Nat) :
    List MatchRec → Nat × Nat
  | [] => (freed, failed)
  | r :: rest =>
    match rmSyncForce st r.path with
    | .success => deleteLoop st (freed + r.size) failed rest
    | .failure _ => deleteLoop st freed (failed + 1) rest

/-- `deleteResults(results)` from the source: returns the final
`(freed, failed)` tally. -/
def deleteResults (st : List String → PathState) (results : List MatchRec) :
    Nat × Nat :=
  deleteLoop st 0 0 results

/-! ### Main pipeline (dry-run gating) -/

/-- Remove the entry at the given relative component path from a listing
(the tree-level effect of a successful recursive `rmSync`). -/
def removeAt (es : List Entry) : List String → List Entry
  | [] => es
  | [n] => es.filter (fun e => !(e.name == n))
  | n :: rest => es.map (fun e => match e with
      | .dir m ch => if m = n then .dir m (removeAt ch rest) else .dir m ch
      | .file m => .file m)

/-- Apply the deletions of a record list to the tree rooted at `root`. -/
def applyDeletions (es : List Entry) (root : List String)
    (rs : List MatchRec) : List Entry :=
  rs.foldl (fun acc r => removeAt acc (r.path.drop root.length)) es

/-- Observable outcome of one `main` run after argument handling: the
scan results, the size-annotated results, whether `deleteResults` was
invoked, and the filesystem tree after the run. -/
structure RunOutcome where
  records : List MatchRec
  sized : List MatchRec
  deletionInvoked : Bool
  fsAfter : List Entry

/-- The post-validation control flow of `main`: scan; if nothing found,
report and exit; otherwise compute sizes, display, and stop before
deletion when `--dry-run` is set; otherwise prompt unless `--yes` and
run `deleteResults` only on confirmation.  `sizeBytesOf` abstracts
`getDirSize`, `confirmYes` the prompt answer. -/
def runMain (es : List Entry) (root : List String)
    (sizeBytesOf : List String → Nat) (dryRun yes confirmYes : Bool) :
    RunOutcome :=
  let results := scan root es
  if results.isEmpty then ⟨results, results, false, es⟩
  else
    let sized := results.map (fun r => { r with size := sizeBytesOf r.path })
    if dryRun then ⟨results, sized, false, es⟩
    else if !yes && !confirmYes then ⟨results, sized, false, es⟩
    else ⟨results, sized, true, applyDeletions es root sized⟩

/-! ### Matcher lemmas -/

/-- A name accepted by the matcher loop is among the scanned rule names. -/
theorem matchLoop_name_mem {acc : List String → AccessResult} {n : String}
    {dir : List String} :
    ∀ ts : List Target, matchLoop acc n dir ts = true → n ∈ ts.map Target.name := by
  intro ts
  induction ts with
  | nil => simp [matchLoop]
  | cons t rest ih =>
    intro h
    by_cases hn : t.name = n
    · simp [hn]
    · rw [matchLoop, if_pos hn] at h
      exact List.mem_cons_of_mem _ (ih h)

/-- A matched name is a known target name. -/
theorem isTargetMatch_name_mem {acc : List String → AccessResult} {n : String}
    {dir : List String} (h : isTargetMatch acc n dir = true) :
    n ∈ TARGET_NAMES :=
  matchLoop_name_mem TARGETS h

/-- Reading the element just past a front segment of an append. -/
theorem getD_append_fst (pre : List String) (a b d : String) :
    (pre ++ [a, b]).getD pre.length d = a := by
  rw [List.getD_eq_getElem?_getD, List.getElem?_append_right (Nat.le_refl _)]
  simp

/-- Reading the second element past a front segment of an append. -/
theorem getD_append_snd (pre : List String) (a b d : String) :
    (pre ++ [a, b]).getD (pre.length + 1) d = b := by
  rw [List.getD_eq_getElem?_getD,
    List.getElem?_append_right (Nat.le_succ _)]
  simp

/-- The last-two-components test of the `parentPath` strategy holds
exactly on lists of the form `pre ++ [g, p]`. -/
theorem lastTwo_iff (l : List String) (g p : String) :
    (2 ≤ l.length ∧ l.getD (l.length - 1) "" = p ∧ l.getD (l.length - 2) "" = g)
      ↔ ∃ pre, l = pre ++ [g, p] := by
  constructor
  · rintro ⟨hlen, hp, hg⟩
    rcases hrev : l.reverse with _ | ⟨x, _ | ⟨y, t⟩⟩
    · rw [List.reverse_eq_nil_iff] at hrev
      subst hrev; simp at hlen
    · have hl : l = [x] := by
        have := congrArg List.reverse hrev
        simpa using this
      subst hl; simp at hlen
    · have hl : l = t.reverse ++ [y, x] := by
        have := congrArg List.reverse hrev
        simpa using this
      refine ⟨t.reverse, ?_⟩
      have hlen2 : l.length = t.reverse.length + 2 := by rw [hl]; simp
      have h1 : l.length - 1 = t.reverse.length + 1 := by omega
      have h2 : l.length - 2 = t.reverse.length := by omega
      rw [h1, hl, getD_append_snd] at hp
      rw [h2, hl, getD_append_fst] at hg
      rw [hl, hp, hg]
  · rintro ⟨pre, rfl⟩
    have hlen2 : (pre ++ [g, p]).length = pre.length + 2 := by simp
    have h1 : (pre ++ [g, p]).length - 1 = pre.length + 1 := by omega
    have h2 : (pre ++ [g, p]).length - 2 = pre.length := by omega
    refine ⟨by omega, ?_, ?_⟩
    · rw [h1, getD_append_snd]
    · rw [h2, getD_append_fst]

/-- **C4.** A directory named `build` matches exactly when the path of
its parent directory ends in the two components `android`, `app` — i.e.
the candidate's path suffix is `.../android/app/build`; with fewer than
two components above it, or any other suffix (such as
`.../backend/build`), it does not match. -/
theorem claimC4 (acc : List String → AccessResult) (dir : List String) :
    isTargetMatch acc "build" dir = true ↔ ∃ pre, dir = pre ++ ["android", "app"] := by
  have heval : isTargetMatch acc "build" dir =
      if 2 ≤ dir.length ∧ dir.getD (dir.length - 1) "" = "app" ∧
          dir.getD (dir.length - 2) "" = "android"
      then true else false := rfl
  rw [heval]
  rcases Decidable.em (2 ≤ dir.length ∧ dir.getD (dir.length - 1) "" = "app" ∧
      dir.getD (dir.length - 2) "" = "android") with hc | hc
  · rw [if_pos hc]
    exact iff_of_true rfl ((lastTwo_iff dir "android" "app").mp hc)
  · rw [if_neg hc]
    constructor
    · intro h; exact absurd h (by decide)
    · intro hpre
      exact absurd ((lastTwo_iff dir "android" "app").mpr hpre) hc

/-- **C8.** Every Direct-strategy target name (such as `node_modules`,
`.next`, `dist`) matches at every location: for every parent path and
every filesystem access behaviour the matcher returns true. -/
theorem claimC8 (t : Target) (ht : t ∈ TARGETS) (hd : t.matchKind = .direct)
    (acc : List String → AccessResult) (dir : List String) :
    isTargetMatch acc t.name dir = true := by
  fin_cases ht <;> first
    | rfl
    | exact absurd hd (by decide)

/-- Witness for C8: a `node_modules` directory matches under an
arbitrary parent path even when every filesystem access fails. -/
theorem claimC8_witness :
    isTargetMatch (fun _ => AccessResult.err "ENOENT") "node_modules"
      ["some", "nested", "place"] = true :=
  claimC8 ⟨"node_modules", .direct⟩ (by decide) rfl _ _

/-- **C7.** The sibling-existence check is fail-closed: for every
sibling-strategy rule, whenever the access check on the sibling path
throws — with ENOENT (absent), EACCES (permission denied) or any other
error code — the matcher returns false.  (The embedding is a total
function, so no error propagates out of the matcher.) -/
theorem claimC7 (t : Target) (ht : t ∈ TARGETS) (s : String)
    (hs : t.matchKind = .sibling s) (acc : List String → AccessResult)
    (dir : List String) (code : String)
    (hacc : acc (dir ++ [s]) = .err code) :
    isTargetMatch acc t.name dir = false := by
  have ht2 : t = ⟨"vendor", .sibling "Gemfile"⟩ ∨
      t = ⟨"target", .sibling "Cargo.toml"⟩ := by
    fin_cases ht <;> first
      | exact Or.inl rfl
      | exact Or.inr rfl
      | exact MatchStrategy.noConfusion hs
  rcases ht2 with rfl | rfl
  · injection hs with h'
    subst h'
    have heval : isTargetMatch acc "vendor" dir =
        (match acc (dir ++ ["Gemfile"]) with
          | AccessResult.ok => true
          | AccessResult.err _ => false) := rfl
    rw [heval, hacc]
  · injection hs with h'
    subst h'
    have heval : isTargetMatch acc "target" dir =
        (match acc (dir ++ ["Cargo.toml"]) with
          | AccessResult.ok => true
          | AccessResult.err _ => false) := rfl
    rw [heval, hacc]

/-- Witness for C7: a `vendor` candidate whose `Gemfile` access check
throws EACCES is not matched. -/
theorem claimC7_witness :
    isTargetMatch (fun _ => AccessResult.err "EACCES") "vendor" ["r"] = false :=
  claimC7 ⟨"vendor", .sibling "Gemfile"⟩ (by decide) "Gemfile" rfl _ ["r"]
    "EACCES" rfl

/-- Over a real directory listing, the `vendor` rule evaluates to the
bare existence check of an entry named `Gemfile`. -/
theorem vendor_eval (es : List Entry) (dir : List String) :
    matchedIn es dir "vendor" = existsEntry es "Gemfile" := by
  have heval : matchedIn es dir "vendor" =
      (match accOf es (dir ++ ["Gemfile"]) with
        | AccessResult.ok => true
        | AccessResult.err _ => false) := rfl
  rw [heval]
  simp only [accOf, List.getLastD_concat]
  cases h : existsEntry es "Gemfile" <;> simp [h]

/-- **C2 (amended).** For a directory named `vendor`, the Matcher
returns true iff an entry named `Gemfile` — file **or** directory —
exists in the same parent directory: the sibling check is a bare
existence test (`fs.accessSync` with `F_OK`) and does not require the
sibling to be a regular file. -/
theorem claimC2 (es : List Entry) (dir : List String) :
    matchedIn es dir "vendor" = true ↔ ∃ e ∈ es, e.name = "Gemfile" := by
  rw [vendor_eval]
  simp [existsEntry, List.any_eq_true]

/-- The listing of a directory holding a `vendor` directory and a
**directory** (not a file) named `Gemfile`. -/
def c2Listing : List Entry := [Entry.dir "vendor" [], Entry.dir "Gemfile" []]

/-- Counterexample to C2 as stated: with `Gemfile` present as a
directory and no file named `Gemfile`, the Matcher still returns true
for `vendor`, although the claim requires false in this situation. -/
theorem claimC2_counterexample :
    matchedIn c2Listing ["r"] "vendor" = true ∧
    existsFileNamed c2Listing "Gemfile" = false := by decide

/-! ### Deletion executor lemmas -/

/-- Total bytes freed by a batch: the sizes of the records whose
`rmSync` call succeeds. -/
def freedOf (st : List String → PathState) : List MatchRec → Nat
  | [] => 0
  | r :: rest =>
    (match rmSyncForce st r.path with
      | .success => r.size
      | .failure _ => 0) + freedOf st rest

/-- Number of records whose `rmSync` call throws. -/
def failsOf (st : List String → PathState) : List MatchRec → Nat
  | [] => 0
  | r :: rest =>
    (match rmSyncForce st r.path with
      | .success => 0
      | .failure _ => 1) + failsOf st rest

/-- Sum of the `size` fields of a record list. -/
def sumSizes : List MatchRec → Nat
  | [] => 0
  | r :: rest => r.size + sumSizes rest

/-- The deletion loop computes the freed-bytes sum and failure count. -/
theorem deleteLoop_eq (st : List String → PathState) (rs : List MatchRec) :
    ∀ f k, deleteLoop st f k rs = (f + freedOf st rs, k + failsOf st rs) := by
  induction rs with
  | nil => intro f k; simp [deleteLoop, freedOf, failsOf]
  | cons r rest ih =>
    intro f k
    cases hr : rmSyncForce st r.path with
    | success =>
      simp only [deleteLoop, hr, ih, freedOf, failsOf, Prod.mk.injEq]
      omega
    | failure msg =>
      simp only [deleteLoop, hr, ih, freedOf, failsOf, Prod.mk.injEq]
      omega

/-- `deleteResults` returns the freed-bytes sum and failure count. -/
theorem deleteResults_eq (st : List String → PathState) (rs : List MatchRec) :
    deleteResults st rs = (freedOf st rs, failsOf st rs) := by
  simp [deleteResults, deleteLoop_eq]

/-- `freedOf` distributes over append. -/
theorem freedOf_append (st : List String → PathState) (l₁ l₂ : List MatchRec) :
    freedOf st (l₁ ++ l₂) = freedOf st l₁ + freedOf st l₂ := by
  induction l₁ with
  | nil => simp [freedOf]
  | cons r rest ih => simp [freedOf, ih]; omega

/-- `failsOf` distributes over append. -/
theorem failsOf_append (st : List String → PathState) (l₁ l₂ : List MatchRec) :
    failsOf st (l₁ ++ l₂) = failsOf st l₁ + failsOf st l₂ := by
  induction l₁ with
  | nil => simp [failsOf]
  | cons r rest ih => simp [failsOf, ih]; omega

/-- `sumSizes` distributes over append. -/
theorem sumSizes_append (l₁ l₂ : List MatchRec) :
    sumSizes (l₁ ++ l₂) = sumSizes l₁ + sumSizes l₂ := by
  induction l₁ with
  | nil => simp [sumSizes]
  | cons r rest ih => simp [sumSizes, ih]; omega

/-- On a batch whose records are all removable, everything is freed. -/
theorem freedOf_all_removable (st : List String → PathState)
    (l : List MatchRec) (h : ∀ r ∈ l, st r.path = .removable) :
    freedOf st l = sumSizes l := by
  induction l with
  | nil => simp [freedOf, sumSizes]
  | cons r rest ih =>
    have hr : st r.path = .removable := h r (List.mem_cons_self r rest)
    simp [freedOf, sumSizes, rmSyncForce, hr,
      ih (fun x hx => h x (List.mem_cons_of_mem r hx))]

/-- On a batch whose records are all removable, nothing fails. -/
theorem failsOf_all_removable (st : List String → PathState)
    (l : List MatchRec) (h : ∀ r ∈ l, st r.path = .removable) :
    failsOf st l = 0 := by
  induction l with
  | nil => simp [failsOf]
  | cons r rest ih =>
    have hr : st r.path = .removable := h r (List.mem_cons_self r rest)
    simp [failsOf, rmSyncForce, hr,
      ih (fun x hx => h x (List.mem_cons_of_mem r hx))]

/-- A deletion-time filesystem in which every path has vanished. -/
def vanishedState : List String → PathState := fun _ => PathState.absent

/-- A scanned record whose directory has vanished before deletion. -/
def c3rec : MatchRec := ⟨"node_modules", ["r", "node_modules"], 100⟩

/-- Counterexample to C3 as stated: for a record whose path no longer
exists, `deleteResults` reports zero failures and adds the record's
`sizeBytes` to the freed total — `rmSync` with `force: true` raises no
error on a missing path — where the claim requires one failure and no
freed bytes. -/
theorem claimC3_counterexample :
    deleteResults vanishedState [c3rec] = (100, 0) ∧
    vanishedState c3rec.path = PathState.absent := by decide

/-- **C3 (amended).** A record whose `absolutePath` no longer exists
when the Deletion Executor reaches it is counted as a success, not a
failure: `fs.rmSync` with `force: true` raises no exception on a
missing path, so the failure counter is unchanged and the record's
`sizeBytes` *is* added to `freedBytes`. -/
theorem claimC3 (st : List String → PathState) (pre post : List MatchRec)
    (r : MatchRec) (h : st r.path = PathState.absent) :
    deleteResults st (pre ++ r :: post) =
      ((deleteResults st (pre ++ post)).1 + r.size,
       (deleteResults st (pre ++ post)).2) := by
  have hr : rmSyncForce st r.path = .success := by simp [rmSyncForce, h]
  simp only [deleteResults_eq, freedOf_append, failsOf_append, freedOf,
    failsOf, hr, Prod.mk.injEq]
  omega

/-- A second record, still present at deletion time. -/
def c3post : MatchRec := ⟨"dist", ["r", "dist"], 7⟩

/-- Witness for C3 (amended): inserting a vanished 100-byte record adds
100 to the freed total and nothing to the failure count. -/
theorem claimC3_witness :
    deleteResults vanishedState [c3rec, c3post] =
      ((deleteResults vanishedState [c3post]).1 + 100,
       (deleteResults vanishedState [c3post]).2) :=
  claimC3 vanishedState [] [c3post] c3rec rfl

/-- **C6.** In a batch where exactly one record is unremovable, the
other records are all removed: the failure count is exactly one and the
freed total is the sum of the sizes of the successful records — the
single failure does not abort the batch. -/
theorem claimC6 (st : List String → PathState) (pre post : List MatchRec)
    (bad : MatchRec) (msg : String)
    (hpre : ∀ r ∈ pre, st r.path = PathState.removable)
    (hpost : ∀ r ∈ post, st r.path = PathState.removable)
    (hbad : st bad.path = PathState.stuck msg) :
    deleteResults st (pre ++ bad :: post) = (sumSizes (pre ++ post), 1) := by
  have hb : rmSyncForce st bad.path = .failure msg := by simp [rmSyncForce, hbad]
  simp [deleteResults_eq, freedOf_append, failsOf_append, freedOf,
    failsOf, hb, sumSizes_append, freedOf_all_removable st pre hpre,
    freedOf_all_removable st post hpost, failsOf_all_removable st pre hpre,
    failsOf_all_removable st post hpost]

/-- A deletion-time filesystem where exactly the path `r/a` is
unremovable and everything else is removable. -/
def c6state : List String → PathState :=
  fun p => if p = ["r", "a"] then PathState.stuck "EACCES" else PathState.removable

/-- Records for the C6 witness: two removable, one stuck. -/
def c6pre : MatchRec := ⟨"node_modules", ["r", "n"], 5⟩

/-- The unremovable middle record of the C6 witness batch. -/
def c6bad : MatchRec := ⟨"dist", ["r", "a"], 7⟩

/-- The removable final record of the C6 witness batch. -/
def c6post : MatchRec := ⟨"dist", ["r", "b"], 9⟩

/-- Witness for C6: of three records with one unremovable in the middle,
the tally is 5 + 9 = 14 freed bytes and exactly one failure. -/
theorem claimC6_witness :
    deleteResults c6state [c6pre, c6bad, c6post] = (14, 1) := by
  have h := claimC6 c6state [c6pre] [c6post] c6bad "EACCES"
    (by decide) (by decide) (by decide)
  simpa [sumSizes, c6pre, c6post] using h

/-! ### Walker invariant -/

/-- Extending a listing preserves a positive existence check. -/
theorem dirExistsAt_cons (e : Entry) (es : List Entry) (p : List String)
    (h : dirExistsAt es p = true) : dirExistsAt (e :: es) p = true := by
  cases p with
  | nil => simp [dirExistsAt]
  | cons n rest =>
    simp only [dirExistsAt, List.any_cons] at h ⊢
    simp [h]

/-- A path through the head directory of a listing exists when its tail
exists in the head's children. -/
theorem dirExistsAt_here (name : String) (children rest : List Entry)
    (p : List String) (h : dirExistsAt children p = true) :
    dirExistsAt (Entry.dir name children :: rest) (name :: p) = true := by
  simp [dirExistsAt, List.any_cons, h]

/-- Shape of every record the walker emits from directory `dir` with
full listing `all`, while the suffix `l` of `all` remains to process:
its path extends `dir` by intermediate components that are neither
target names nor skipped names, ends in a target name, has size zero,
is matched at the top level when emitted directly, and denotes a
directory that exists in the tree below `l`. -/
def RecordSpec (dir : List String) (all l : List Entry) (r : MatchRec) : Prop :=
  ∃ mid last,
    r.path = dir ++ (mid ++ [last]) ∧
    r.name = last ∧
    r.size = 0 ∧
    (∀ m ∈ mid, m ∉ TARGET_NAMES ∧ m ∉ SKIP_DIRS) ∧
    last ∈ TARGET_NAMES ∧ last ∉ SKIP_DIRS ∧
    (mid = [] → matchedIn all dir last = true) ∧
    dirExistsAt l (mid ++ [last]) = true

/-- Every record produced by the walker satisfies `RecordSpec`. -/
theorem walkAux_spec (dir : List String) (all l : List Entry) :
    ∀ r ∈ walkAux dir all l, RecordSpec dir all l r := by
  induction dir, all, l using walkAux.induct with
  | case1 dir all =>
    intro r hr
    simp [walkAux] at hr
  | case2 dir all name rest ih =>
    intro r hr
    simp only [walkAux] at hr
    obtain ⟨mid, last, h1, h2, h3, h4, h5, h6, h7, h8⟩ := ih r hr
    exact ⟨mid, last, h1, h2, h3, h4, h5, h6, h7, dirExistsAt_cons _ _ _ h8⟩
  | case3 dir all name children rest hskip ih =>
    intro r hr
    simp only [walkAux, if_pos hskip] at hr
    obtain ⟨mid, last, h1, h2, h3, h4, h5, h6, h7, h8⟩ := ih r hr
    exact ⟨mid, last, h1, h2, h3, h4, h5, h6, h7, dirExistsAt_cons _ _ _ h8⟩
  | case4 dir all name children rest hskip hmatch ih =>
    intro r hr
    simp only [walkAux, if_neg hskip, hmatch, if_pos, List.mem_cons] at hr
    rcases hr with rfl | hr
    · refine ⟨[], name, by simp, rfl, rfl, by simp, isTargetMatch_name_mem hmatch,
        hskip, fun _ => hmatch, ?_⟩
      simp [dirExistsAt, List.any_cons]
    · obtain ⟨mid, last, h1, h2, h3, h4, h5, h6, h7, h8⟩ := ih r hr
      exact ⟨mid, last, h1, h2, h3, h4, h5, h6, h7, dirExistsAt_cons _ _ _ h8⟩
  | case5 dir all name children rest hskip hmatch hknown ih =>
    intro r hr
    simp only [walkAux, if_neg hskip, if_neg hmatch, if_pos hknown] at hr
    obtain ⟨mid, last, h1, h2, h3, h4, h5, h6, h7, h8⟩ := ih r hr
    exact ⟨mid, last, h1, h2, h3, h4, h5, h6, h7, dirExistsAt_cons _ _ _ h8⟩
  | case6 dir all name children rest hskip hmatch hknown ihChild ihRest =>
    intro r hr
    simp only [walkAux, if_neg hskip, if_neg hmatch, if_neg hknown] at hr
    rcases List.mem_append.mp hr with hrc | hrr
    · obtain ⟨mid', last, h1, h2, h3, h4, h5, h6, h7, h8⟩ := ihChild r hrc
      refine ⟨name :: mid', last, ?_, h2, h3, ?_, h5, h6, by simp, ?_⟩
      · rw [h1]; simp
      · intro m hm
        rcases List.mem_cons.mp hm with rfl | hm'
        · exact ⟨hknown, hskip⟩
        · exact h4 m hm'
      · exact dirExistsAt_here name children rest _ h8
    · obtain ⟨mid, last, h1, h2, h3, h4, h5, h6, h7, h8⟩ := ihRest r hrr
      exact ⟨mid, last, h1, h2, h3, h4, h5, h6, h7, dirExistsAt_cons _ _ _ h8⟩

/-- `initSeg p q` holds exactly when `q` extends `p`. -/
theorem initSeg_iff : ∀ p q : List String, initSeg p q = true ↔ ∃ t, q = p ++ t := by
  intro p
  induction p with
  | nil => intro q; simp [initSeg]
  | cons a as ih =>
    intro q
    cases q with
    | nil => simp [initSeg]
    | cons b bs =>
      simp only [initSeg, Bool.and_eq_true, beq_iff_eq, ih, List.cons_append]
      constructor
      · rintro ⟨rfl, t, rfl⟩
        exact ⟨t, rfl⟩
      · rintro ⟨t, ht⟩
        injection ht with hb hbs
        exact ⟨hb.symm, t, hbs⟩

/-- **C1.** No scan result lies strictly inside another scan result: for
every root and tree, no record's path is a strict descendant of another
record's path (in particular, a `node_modules` nested inside a matched
`node_modules` never appears). -/
theorem claimC1 (root : List String) (es : List Entry) (r₁ r₂ : MatchRec)
    (h₁ : r₁ ∈ scan root es) (h₂ : r₂ ∈ scan root es) :
    isStrictDescendantOf r₂.path r₁.path = false := by
  obtain ⟨mid₁, l₁, p11, _, _, _, p15, _, _, _⟩ := walkAux_spec root es es r₁ h₁
  obtain ⟨mid₂, l₂, p21, _, _, p24, _, _, _, _⟩ := walkAux_spec root es es r₂ h₂
  by_contra hne
  have htrue : isStrictDescendantOf r₂.path r₁.path = true := by
    revert hne
    cases isStrictDescendantOf r₂.path r₁.path <;> simp
  rw [isStrictDescendantOf, Bool.and_eq_true] at htrue
  obtain ⟨hseg, hdec⟩ := htrue
  have hlt : r₁.path.length < r₂.path.length := of_decide_eq_true hdec
  obtain ⟨t, ht⟩ := (initSeg_iff _ _).mp hseg
  rw [p11, p21] at ht
  rw [p11, p21] at hlt
  rw [List.append_assoc] at ht
  have hcancel : mid₂ ++ [l₂] = (mid₁ ++ [l₁]) ++ t := List.append_cancel_left ht
  have hlen : mid₁.length < mid₂.length := by
    have hlent := congrArg List.length hcancel
    simp at hlent hlt
    omega
  have hidx : (mid₂ ++ [l₂])[mid₁.length]? = some l₁ := by
    rw [hcancel, List.append_assoc,
      List.getElem?_append_right (Nat.le_refl mid₁.length)]
    simp
  rw [List.getElem?_append_left hlen] at hidx
  have hmem : l₁ ∈ mid₂ := List.getElem?_mem hidx
  exact (p24 l₁ hmem).1 p15

/-- A tree whose matched `node_modules` directory holds another
`node_modules` inside it. -/
def demoFs : List Entry := [Entry.dir "node_modules" [Entry.dir "node_modules" []]]

/-- Scanning `demoFs` yields only the outer `node_modules` record. -/
theorem scan_demoFs :
    scan ["r"] demoFs = [⟨"node_modules", ["r", "node_modules"], 0⟩] := by
  simp [scan, demoFs, walkAux, isTargetMatch, matchLoop, accOf, existsEntry,
    SKIP_DIRS, TARGETS, TARGET_NAMES, Entry.name]

/-- Witness for C1: in a tree with a `node_modules` nested inside a
matched `node_modules`, only the outer one is reported and its path is
not a strict descendant of itself. -/
theorem claimC1_witness :
    scan ["r"] demoFs = [⟨"node_modules", ["r", "node_modules"], 0⟩] ∧
    isStrictDescendantOf (["r", "node_modules"] : List String)
      ["r", "node_modules"] = false := by
  refine ⟨scan_demoFs, ?_⟩
  have hm : (⟨"node_modules", ["r", "node_modules"], 0⟩ : MatchRec) ∈
      scan ["r"] demoFs := by
    rw [scan_demoFs]
    simp
  exact claimC1 ["r"] demoFs _ _ hm hm

/-- **C5.** A known target name that fails its safety check is neither
recorded nor entered: no scan result's path starts with
`root ++ [name]`, so nothing inside such a directory (even a deeply
nested `node_modules`) ever appears in the results. -/
theorem claimC5 (root : List String) (es : List Entry) (name : String)
    (hknown : name ∈ TARGET_NAMES) (hfail : matchedIn es root name = false)
    (r : MatchRec) (hr : r ∈ scan root es) :
    initSeg (root ++ [name]) r.path = false := by
  obtain ⟨mid, last, p1, _, _, p4, _, _, p7, _⟩ := walkAux_spec root es es r hr
  by_contra hne
  have htrue : initSeg (root ++ [name]) r.path = true := by
    revert hne
    cases initSeg (root ++ [name]) r.path <;> simp
  obtain ⟨t, ht⟩ := (initSeg_iff _ _).mp htrue
  rw [p1, List.append_assoc] at ht
  have hcancel : mid ++ [last] = [name] ++ t := List.append_cancel_left ht
  cases mid with
  | nil =>
    simp only [List.nil_append, List.singleton_append, List.cons.injEq] at hcancel
    obtain ⟨rfl, -⟩ := hcancel
    have hm := p7 rfl
    rw [hfail] at hm
    exact absurd hm (by decide)
  | cons m ms =>
    rw [List.cons_append, List.singleton_append] at hcancel
    injection hcancel with hm _
    have hmem : m ∈ m :: ms := List.mem_cons_self m ms
    have hnot := (p4 m hmem).1
    rw [hm] at hnot
    exact hnot hknown

/-- A tree with a `target` directory lacking a `Cargo.toml` sibling but
containing a nested `node_modules`, next to an unrelated `dist`. -/
def c5Fs : List Entry :=
  [Entry.dir "target" [Entry.dir "node_modules" []], Entry.dir "dist" []]

/-- Scanning `c5Fs` yields only the `dist` record: the unmatched
`target` is neither recorded nor entered. -/
theorem scan_c5Fs : scan ["r"] c5Fs = [⟨"dist", ["r", "dist"], 0⟩] := by
  simp [scan, c5Fs, walkAux, isTargetMatch, matchLoop, accOf, existsEntry,
    SKIP_DIRS, TARGETS, TARGET_NAMES, Entry.name]

/-- Witness for C5: with `target` lacking its `Cargo.toml` sibling, the
only result is `dist`, whose path does not start with `r/target`. -/
theorem claimC5_witness :
    scan ["r"] c5Fs = [⟨"dist", ["r", "dist"], 0⟩] ∧
    initSeg ((["r"] : List String) ++ ["target"]) ["r", "dist"] = false := by
  refine ⟨scan_c5Fs, ?_⟩
  refine claimC5 ["r"] c5Fs "target" (by decide) (by decide)
    ⟨"dist", ["r", "dist"], 0⟩ ?_
  rw [scan_c5Fs]
  simp

/-- A tree with a `.svn` directory containing a `node_modules`. -/
def svnFs : List Entry := [Entry.dir ".svn" [Entry.dir "node_modules" []]]

/-- **C10.** The fixed skip set is exactly `[".git"]`; no scan result's
path contains `.git` below the root, and directories named for other
version-control systems (here `.svn`) are traversed like ordinary
directories: their contents can be matched. -/
theorem claimC10 :
    SKIP_DIRS = [".git"] ∧
    (∀ (root : List String) (es : List Entry) (r : MatchRec),
      r ∈ scan root es → ".git" ∉ r.path.drop root.length) ∧
    scan ["r"] svnFs = [⟨"node_modules", ["r", ".svn", "node_modules"], 0⟩] := by
  refine ⟨rfl, ?_, ?_⟩
  · intro root es r hr
    obtain ⟨mid, last, p1, _, _, p4, _, p6, _, _⟩ := walkAux_spec root es es r hr
    rw [p1, List.drop_left]
    intro hmem
    rcases List.mem_append.mp hmem with hm | hm
    · exact (p4 _ hm).2 (by decide)
    · rw [List.mem_singleton] at hm
      exact p6 (hm ▸ (by decide : ".git" ∈ SKIP_DIRS))
  · simp [scan, svnFs, walkAux, isTargetMatch, matchLoop, accOf, existsEntry,
      SKIP_DIRS, TARGETS, TARGET_NAMES, Entry.name]

/-- Witness for C10: the path of the record found inside `.svn` contains
no `.git` component below the root. -/
theorem claimC10_witness :
    ".git" ∉ ((["r", ".svn", "node_modules"] : List String).drop
      (["r"] : List String).length) := by
  have h10 := claimC10
  refine h10.2.1 ["r"] svnFs ⟨"node_modules", ["r", ".svn", "node_modules"], 0⟩ ?_
  rw [h10.2.2]
  simp

/-- **C9.** With dry-run set, `main` performs the scan and the sizing
but never invokes the Deletion Executor: the resulting tree equals the
input tree, and every matched artifact directory still exists in it. -/
theorem claimC9 (es : List Entry) (root : List String)
    (sizeBytesOf : List String → Nat) (yes confirmYes : Bool) :
    (runMain es root sizeBytesOf true yes confirmYes).deletionInvoked = false ∧
    (runMain es root sizeBytesOf true yes confirmYes).fsAfter = es ∧
    (runMain es root sizeBytesOf true yes confirmYes).records = scan root es ∧
    ((scan root es).isEmpty = false →
      (runMain es root sizeBytesOf true yes confirmYes).sized =
        (scan root es).map (fun r => { r with size := sizeBytesOf r.path })) ∧
    ∀ r ∈ (runMain es root sizeBytesOf true yes confirmYes).records,
      ∃ suf, r.path = root ++ suf ∧ dirExistsAt es suf = true := by
  have hrec : ∀ r ∈ scan root es,
      ∃ suf, r.path = root ++ suf ∧ dirExistsAt es suf = true := by
    intro r hr
    obtain ⟨mid, last, p1, _, _, _, _, _, _, p8⟩ := walkAux_spec root es es r hr
    exact ⟨mid ++ [last], p1, p8⟩
  have hrecords : (runMain es root sizeBytesOf true yes confirmYes).records =
      scan root es := by
    by_cases he : (scan root es).isEmpty <;> simp [runMain, he]
  refine ⟨?_, ?_, hrecords, ?_, ?_⟩
  · by_cases he : (scan root es).isEmpty <;> simp [runMain, he]
  · by_cases he : (scan root es).isEmpty <;> simp [runMain, he]
  · intro hne
    simp [runMain, hne]
  · rw [hrecords]
    exact hrec

/-- Witness for C9: a dry run on `demoFs` does not invoke deletion,
leaves the tree unchanged, and the matched `node_modules` still exists
at its recorded path. -/
theorem claimC9_witness :
    (runMain demoFs ["r"] (fun _ => 42) true true true).deletionInvoked = false ∧
    (runMain demoFs ["r"] (fun _ => 42) true true true).fsAfter = demoFs ∧
    ∃ suf, (["r", "node_modules"] : List String) = ["r"] ++ suf ∧
      dirExistsAt demoFs suf = true := by
  have h := claimC9 demoFs ["r"] (fun _ => 42) true true
  refine ⟨h.1, h.2.1, ?_⟩
  have hm : (⟨"node_modules", ["r", "node_modules"], 0⟩ : MatchRec) ∈
      (runMain demoFs ["r"] (fun _ => 42) true true true).records := by
    rw [h.2.2.1, scan_demoFs]
    simp
  exact h.2.2.2.2 _ hm

end FreeDevSpace
